import Mathlib

/-!
Verification of the chaotic stream cipher in `chaotic_cipher.py`.

The numeric core is shallowly embedded with real-number semantics for the
double-precision arithmetic: the Gauss-map state lives in `ℝ`, `np.exp`
becomes `Real.exp`, Python `int(...)` becomes truncation toward zero on `ℝ`,
and the Python bitmask `& 0xFF` on a (possibly negative) integer becomes the
nonnegative remainder `% 256` on `ℤ`.  Byte buffers are `List ℕ`, XOR is
`Nat.xor`.
-/

namespace ChaoticCipher

/-- One iteration of the chaotic map, `x = np.exp(-alpha * x**2) + beta`
(src/chaotic_cipher.py line 18). -/
noncomputable def gauss_step (alpha beta x : ℝ) : ℝ :=
  Real.exp (-alpha * x ^ 2) + beta

/-- Python `int(y)` on a float `y`: truncation toward zero. -/
noncomputable def py_int (y : ℝ) : ℤ :=
  if 0 ≤ y then ⌊y⌋ else ⌈y⌉

/-- The byte emitted for a state `x`: `int(((x + 1)/2) * 256) & 0xFF`
(src/chaotic_cipher.py line 20).  On a Python integer, `& 0xFF` is the
nonnegative remainder modulo 256, which is `Int.emod` here. -/
noncomputable def byte_of (x : ℝ) : ℕ :=
  (py_int (((x + 1) / 2) * 256) % 256).toNat

/-- `gauss_map_keygen(length, x0, alpha, beta)` (src/chaotic_cipher.py
lines 5-21): starting from `x = x0`, repeat `length` times: update
`x = exp(-alpha * x**2) + beta`, then emit `int(((x + 1)/2) * 256) & 0xFF`.
The filled-in-order `bytearray` is embedded as a list built head first. -/
noncomputable def gauss_map_keygen : ℕ → ℝ → ℝ → ℝ → List ℕ
  | 0, _, _, _ => []
  | Nat.succ n, x0, alpha, beta =>
      byte_of (gauss_step alpha beta x0) ::
        gauss_map_keygen n (gauss_step alpha beta x0) alpha beta

/-- `gauss_map_keygen` called with a Python `int` length of either sign:
`bytearray(length)` raises `ValueError` for a negative count
(src/chaotic_cipher.py line 15), embedded as `none`. -/
noncomputable def gauss_map_keygen_checked (length : ℤ) (x0 alpha beta : ℝ) :
    Option (List ℕ) :=
  if length < 0 then none
  else some (gauss_map_keygen length.toNat x0 alpha beta)

/-- The pure core of `chaotic_encrypt_decrypt` (src/chaotic_cipher.py
lines 37-42), with the file I/O stripped: generate a keystream of the
data's length and XOR byte-wise; `zip` truncates to the shorter list. -/
noncomputable def chaotic_encrypt_decrypt (data : List ℕ) (x0 alpha beta : ℝ) :
    List ℕ :=
  List.zipWith (fun d k => d ^^^ k) data
    (gauss_map_keygen data.length x0 alpha beta)

/-- The byte-mapping formula as the spec states it (§4.1 step 2b):
`floor(((x + 1) / 2) * 256)` reduced modulo 256.  This is the spec's wording,
kept for comparison with `byte_of`, which embeds the source line. -/
noncomputable def spec_floor_byte (x : ℝ) : ℕ :=
  ((⌊((x + 1) / 2) * 256⌋ : ℤ) % 256).toNat

/-! ### Helper lemmas -/

lemma gauss_map_keygen_length (n : ℕ) (x0 alpha beta : ℝ) :
    (gauss_map_keygen n x0 alpha beta).length = n := by
  induction n generalizing x0 with
  | zero => rfl
  | succ n ih => simp [gauss_map_keygen, ih]

lemma getD_zipWith (f : ℕ → ℕ → ℕ) (l₁ l₂ : List ℕ) (i : ℕ)
    (h₁ : i < l₁.length) (h₂ : i < l₂.length) :
    (List.zipWith f l₁ l₂).getD i 0 = f (l₁.getD i 0) (l₂.getD i 0) := by
  induction l₁ generalizing l₂ i with
  | nil => simp at h₁
  | cons a l₁ ih =>
      cases l₂ with
      | nil => simp at h₂
      | cons b l₂ =>
          cases i with
          | zero => rfl
          | succ i =>
              simp only [List.zipWith_cons_cons, List.getD_cons_succ]
              exact ih l₂ i (by simpa using h₁) (by simpa using h₂)

lemma zipWith_xor_self_cancel (l k : List ℕ) (h : l.length = k.length) :
    List.zipWith (fun d k => d ^^^ k)
      (List.zipWith (fun d k => d ^^^ k) l k) k = l := by
  induction l generalizing k with
  | nil => simp
  | cons a l ih =>
      cases k with
      | nil => simp at h
      | cons b k =>
          simp only [List.zipWith_cons_cons]
          refine congrArg₂ _ ?_ (ih k (by simpa using h))
          simp [Nat.xor_assoc]

lemma gauss_map_keygen_getD (n : ℕ) (x0 alpha beta : ℝ) (i : ℕ) (h : i < n) :
    (gauss_map_keygen n x0 alpha beta).getD i 0 =
      byte_of ((gauss_step alpha beta)^[i + 1] x0) := by
  induction n generalizing x0 i with
  | zero => omega
  | succ n ih =>
      cases i with
      | zero => simp [gauss_map_keygen]
      | succ i =>
          simp only [gauss_map_keygen, List.getD_cons_succ]
          rw [ih (gauss_step alpha beta x0) i (by omega)]
          rw [← Function.iterate_succ_apply]

lemma byte_of_le (x : ℝ) : byte_of x ≤ 255 := by
  unfold byte_of
  have h0 : (0 : ℤ) < 256 := by norm_num
  have h := Int.emod_lt_of_pos (py_int (((x + 1) / 2) * 256)) h0
  omega

/-! ### Claim theorems -/

/-- C1: Involution: applying the XOR transform twice with identical
parameters returns the original data, for every byte sequence and every
parameter triple. -/
theorem involution_transform_twice (d : List ℕ) (x0 alpha beta : ℝ) :
    chaotic_encrypt_decrypt (chaotic_encrypt_decrypt d x0 alpha beta)
      x0 alpha beta = d := by
  unfold chaotic_encrypt_decrypt
  have hlen : (List.zipWith (fun d k => d ^^^ k) d
      (gauss_map_keygen d.length x0 alpha beta)).length = d.length := by
    simp [gauss_map_keygen_length]
  rw [hlen]
  exact zipWith_xor_self_cancel d _ (gauss_map_keygen_length _ _ _ _).symm

/-- C2: XOR transform correctness: the transform of `data` has the length of
`data`, its `i`-th byte is `data[i] XOR keystream[i]` for the keystream
generated at that length, and empty input yields empty output. -/
theorem transform_length_and_bytes (d : List ℕ) (x0 alpha beta : ℝ) :
    (chaotic_encrypt_decrypt d x0 alpha beta).length = d.length ∧
    (∀ i, i < d.length →
      (chaotic_encrypt_decrypt d x0 alpha beta).getD i 0 =
        d.getD i 0 ^^^ (gauss_map_keygen d.length x0 alpha beta).getD i 0) ∧
    chaotic_encrypt_decrypt [] x0 alpha beta = [] := by
  refine ⟨?_, ?_, ?_⟩
  · simp [chaotic_encrypt_decrypt, gauss_map_keygen_length]
  · intro i hi
    unfold chaotic_encrypt_decrypt
    exact getD_zipWith _ d _ i hi
      (by rw [gauss_map_keygen_length]; exact hi)
  · rfl

/-- C2 witness: the byte equation instantiated at `data = [1, 2, 3]`,
position 0, parameters `(0, 0, 0)`. -/
theorem transform_length_and_bytes_witness :
    0 < List.length [1, 2, 3] ∧
      (chaotic_encrypt_decrypt [1, 2, 3] 0 0 0).getD 0 0 =
        List.getD [1, 2, 3] 0 0 ^^^ (gauss_map_keygen 3 0 0 0).getD 0 0 :=
  ⟨by decide, (transform_length_and_bytes [1, 2, 3] 0 0 0).2.1 0 (by decide)⟩

/-- C5: Map update formula: the `i`-th emitted byte comes from iterating
`x = exp(-alpha * x^2) + beta` exactly `i + 1` times from `x0`: the state is
initialized to `x0` and updated before each byte is emitted. -/
theorem map_update_iterate (n : ℕ) (x0 alpha beta : ℝ) (i : ℕ) (h : i < n) :
    (gauss_map_keygen n x0 alpha beta).getD i 0 =
      byte_of ((fun x => Real.exp (-alpha * x ^ 2) + beta)^[i + 1] x0) :=
  gauss_map_keygen_getD n x0 alpha beta i h

/-- C5 witness: the iterate characterization at `n = 1`, `i = 0`,
parameters `(0, 0, 0)`. -/
theorem map_update_iterate_witness :
    0 < 1 ∧
      (gauss_map_keygen 1 0 0 0).getD 0 0 =
        byte_of ((fun x => Real.exp (-(0 : ℝ) * x ^ 2) + 0)^[0 + 1] 0) :=
  ⟨by decide, map_update_iterate 1 0 0 0 0 (by decide)⟩

/-- C6: Determinism: two invocations of the generator with equal argument
tuples return identical byte sequences; the generator is a pure function of
its arguments. -/
theorem keygen_deterministic (n₁ n₂ : ℕ) (x₁ x₂ a₁ a₂ b₁ b₂ : ℝ)
    (hn : n₁ = n₂) (hx : x₁ = x₂) (ha : a₁ = a₂) (hb : b₁ = b₂) :
    gauss_map_keygen n₁ x₁ a₁ b₁ = gauss_map_keygen n₂ x₂ a₂ b₂ := by
  subst hn hx ha hb
  rfl

/-- C6 witness: determinism instantiated at
`(5, 0.1, 4.9, 0.2)` on both sides. -/
theorem keygen_deterministic_witness :
    (5 : ℕ) = 5 ∧
      gauss_map_keygen 5 (1 / 10) (49 / 10) (1 / 5) =
        gauss_map_keygen 5 (1 / 10) (49 / 10) (1 / 5) :=
  ⟨rfl, keygen_deterministic 5 5 (1 / 10) (1 / 10) (49 / 10) (49 / 10)
    (1 / 5) (1 / 5) rfl rfl rfl rfl⟩

/-- C7: Length fidelity: the generated keystream has exactly the requested
length, and length 0 yields the empty sequence. -/
theorem keygen_length_fidelity (n : ℕ) (x0 alpha beta : ℝ) :
    (gauss_map_keygen n x0 alpha beta).length = n ∧
      gauss_map_keygen 0 x0 alpha beta = [] :=
  ⟨gauss_map_keygen_length n x0 alpha beta, rfl⟩

/-- C8: Byte range: every byte in a generated keystream lies in
`[0, 255]` (the lower bound holds since bytes are naturals). -/
theorem keygen_byte_range (n : ℕ) (x0 alpha beta : ℝ) (b : ℕ)
    (hb : b ∈ gauss_map_keygen n x0 alpha beta) : b ≤ 255 := by
  induction n generalizing x0 with
  | zero => simp [gauss_map_keygen] at hb
  | succ n ih =>
      simp only [gauss_map_keygen, List.mem_cons] at hb
      rcases hb with hb | hb
      · exact hb ▸ byte_of_le _
      · exact ih _ hb

/-- C8 witness: with parameters `(0, 0, 0)` the single generated byte is 0,
and the range theorem applies to it. -/
theorem keygen_byte_range_witness :
    0 ∈ gauss_map_keygen 1 0 0 0 ∧ (0 : ℕ) ≤ 255 := by
  have hx : gauss_step 0 0 0 = 1 := by
    unfold gauss_step
    have h0 : (-(0 : ℝ)) * 0 ^ 2 = 0 := by norm_num
    rw [h0, Real.exp_zero]
    norm_num
  have hmem : (0 : ℕ) ∈ gauss_map_keygen 1 0 0 0 := by
    have hbyte : byte_of 1 = 0 := by
      unfold byte_of py_int
      norm_num
    simp [gauss_map_keygen, hx, hbyte]
  exact ⟨hmem, keygen_byte_range 1 0 0 0 0 hmem⟩

/-- C9: Seed-sign symmetry: negating the seed leaves the keystream
unchanged, since the seed enters only through its square in the first
map update. -/
theorem keygen_seed_sign_symmetry (n : ℕ) (x0 alpha beta : ℝ) :
    gauss_map_keygen n x0 alpha beta = gauss_map_keygen n (-x0) alpha beta := by
  cases n with
  | zero => rfl
  | succ n =>
      have h : gauss_step alpha beta (-x0) = gauss_step alpha beta x0 := by
        unfold gauss_step
        rw [neg_sq]
      simp [gauss_map_keygen, h]

/-- C10: Negative length rejection: for a negative requested length the
generator fails (the `bytearray` allocation raises) instead of returning a
sequence. -/
theorem keygen_negative_length_error (len : ℤ) (x0 alpha beta : ℝ)
    (h : len < 0) :
    gauss_map_keygen_checked len x0 alpha beta = none := by
  simp [gauss_map_keygen_checked, h]

/-- C3 counterexample: with `x0 = 0`, `alpha = 0`, `beta = -513/256`
(all exactly representable in binary64, and every intermediate value exact),
the state after the first update is `exp(0) - 513/256 = -257/256`, whose
scaled value is `-1/2`.  The source's `int(...)` truncates it to 0 and emits
byte 0, while the spec's `floor` gives `-1`, hence byte 255. -/
theorem byte_formula_floor_counterexample :
    (gauss_map_keygen 1 0 0 (-(513 / 256))).getD 0 0 ≠
      spec_floor_byte ((gauss_step 0 (-(513 / 256)))^[0 + 1] 0) := by
  have hstep : gauss_step 0 (-(513 / 256)) 0 = -(257 / 256 : ℝ) := by
    unfold gauss_step
    have h0 : (-(0 : ℝ)) * 0 ^ 2 = 0 := by norm_num
    rw [h0, Real.exp_zero]
    norm_num
  have harg : (((-(257 / 256 : ℝ)) + 1) / 2) * 256 = -(1 / 2 : ℝ) := by
    norm_num
  have hlhs : (gauss_map_keygen 1 0 0 (-(513 / 256))).getD 0 0 = 0 := by
    simp only [gauss_map_keygen, List.getD_cons_zero, hstep]
    unfold byte_of py_int
    rw [harg]
    rw [if_neg (by norm_num)]
    have hc : ⌈-(1 / 2 : ℝ)⌉ = 0 := by norm_num
    rw [hc]
    decide
  have hrhs : spec_floor_byte ((gauss_step 0 (-(513 / 256)))^[0 + 1] 0)
      = 255 := by
    simp only [zero_add, Function.iterate_one, hstep]
    unfold spec_floor_byte
    rw [harg]
    have hf : ⌊-(1 / 2 : ℝ)⌋ = -1 := by norm_num
    rw [hf]
    decide
  rw [hlhs, hrhs]
  decide

/-- C3 amended: in every iteration, the emitted byte is the scaled value
`((x + 1) / 2) * 256` truncated toward zero (Python `int`), reduced to the
nonnegative remainder modulo 256; when the scaled value is nonnegative this
coincides with the spec's floor formula, but for negative non-integer scaled
values truncation and floor differ. -/
theorem byte_formula_trunc (n : ℕ) (x0 alpha beta : ℝ) (i : ℕ) (h : i < n) :
    (gauss_map_keygen n x0 alpha beta).getD i 0 =
      (py_int ((((gauss_step alpha beta)^[i + 1] x0 + 1) / 2) * 256)
        % 256).toNat ∧
    (0 ≤ (((gauss_step alpha beta)^[i + 1] x0 + 1) / 2) * 256 →
      (gauss_map_keygen n x0 alpha beta).getD i 0 =
        spec_floor_byte ((gauss_step alpha beta)^[i + 1] x0)) := by
  have hbyte := gauss_map_keygen_getD n x0 alpha beta i h
  constructor
  · rw [hbyte]
    rfl
  · intro hy
    rw [hbyte]
    unfold byte_of py_int spec_floor_byte
    rw [if_pos hy]

/-- C3 amended witness: the truncation formula at `n = 1`, `i = 0`,
parameters `(0, 0, 0)`. -/
theorem byte_formula_trunc_witness :
    0 < 1 ∧
      ((gauss_map_keygen 1 0 0 0).getD 0 0 =
        (py_int ((((gauss_step 0 0)^[0 + 1] (0 : ℝ) + 1) / 2) * 256)
          % 256).toNat ∧
      (0 ≤ (((gauss_step 0 0)^[0 + 1] (0 : ℝ) + 1) / 2) * 256 →
        (gauss_map_keygen 1 0 0 0).getD 0 0 =
          spec_floor_byte ((gauss_step 0 0)^[0 + 1] 0))) :=
  ⟨by decide, byte_formula_trunc 1 0 0 0 0 (by decide)⟩

/-- C10 witness: the negative-length failure at `length = -1`,
parameters `(0, 0, 0)`. -/
theorem keygen_negative_length_error_witness :
    (-1 : ℤ) < 0 ∧ gauss_map_keygen_checked (-1) 0 0 0 = none :=
  ⟨by decide, keygen_negative_length_error (-1) 0 0 0 (by decide)⟩

end ChaoticCipher
